import Mathlib

/-!
Shallow embedding of `src/code/User.hpp`: a compressed frequency index over
unsigned 32-bit values (varint codec, delta-encoded values section,
bitmap + overflow-varint counts section, cost-model admission), together
with proofs of the specified properties.

Bytes are modelled as natural numbers (every byte produced by the builder
is < 256); `uint32_t` arithmetic is modelled as `Nat` arithmetic reduced
`% 2 ^ 32` exactly where the C++ type forces a wrap.  Reads of the index
buffer go through `List.getElem?`, so an out-of-bounds access (undefined
behaviour in the C++) surfaces as `none` / `Except.error`.
-/

namespace FreqIdx

/-- The loop of `encode_varint` from `User.hpp`: while `value >= 128` emit
`(value & 0x7F) | 0x80` and shift right by 7; finally emit `value & 0x7F`.
The loop is embedded structurally with an explicit iteration bound (the
value shrinks by a factor 128 per iteration, so any fuel `f` with
`v < 128 ^ (f + 1)` is sufficient, and the fuel-0 arm coincides with the
final `value & 0x7F` emission, reached only when `v < 128`). -/
def encodeVarintAux : ℕ → ℕ → List ℕ
  | 0, v => [v &&& 127]
  | fuel + 1, v =>
    if v < 128 then [v &&& 127]
    else ((v &&& 127) ||| 128) :: encodeVarintAux fuel (v >>> 7)

/-- `encode_varint` from `User.hpp` (fuel `v` always suffices). -/
def encode_varint (v : ℕ) : List ℕ :=
  encodeVarintAux v v

/-- Loop body of `decode_varint` from `User.hpp`.  `value` is a `uint32_t`,
so the accumulation `value |= (b & 0x7F) << shift` is reduced `% 2 ^ 32`.
The C++ loop reads unconditionally (`input[offset++]`); reading past the
end of the buffer is undefined behaviour, modelled as `none`.  The fuel
argument only bounds the number of reads; with fuel `input.length + 1`
it never runs out before a read fails. -/
def decodeAux (input : List ℕ) : ℕ → ℕ → ℕ → ℕ → Option (ℕ × ℕ)
  | 0, _, _, _ => none
  | fuel + 1, off, sh, value =>
    match input[off]? with
    | none => none
    | some b =>
      let value' := (value ||| ((b &&& 127) <<< sh)) % 2 ^ 32
      if b &&& 128 = 0 then some (value', off + 1)
      else decodeAux input fuel (off + 1) (sh + 7) value'

/-- `decode_varint` from `User.hpp`: returns the decoded value and the
updated offset, or `none` on an out-of-bounds read. -/
def decode_varint (input : List ℕ) (off : ℕ) : Option (ℕ × ℕ) :=
  decodeAux input (input.length + 1) off 0 0

/-- Little-endian 4-byte encoding of a `uint32_t`, as written by
`std::memcpy(dst, &x, sizeof(uint32_t))` in `build_idx`. -/
def le4 (n : ℕ) : List ℕ :=
  [n % 256, n / 256 % 256, n / 65536 % 256, n / 16777216 % 256]

/-- Little-endian 4-byte read, as performed by
`std::memcpy(&x, index.data() + pos, sizeof(uint32_t))` in `query_idx`;
`none` models an out-of-bounds read. -/
def readLE4 (index : List ℕ) (pos : ℕ) : Option ℕ :=
  match index[pos]?, index[pos + 1]?, index[pos + 2]?, index[pos + 3]? with
  | some b0, some b1, some b2, some b3 =>
    some (b0 + 256 * b1 + 65536 * b2 + 16777216 * b3)
  | _, _, _, _ => none

/-- Varints for the non-first entries of the values section: each entry is
`value - prev_value` computed in `uint32_t` (modelled as
`(2 ^ 32 + v - prev) % 2 ^ 32`, which is exactly the wrapping difference
for `v, prev < 2 ^ 32`). -/
def deltaBytes (prev : ℕ) : List ℕ → List ℕ
  | [] => []
  | v :: rest => encode_varint ((2 ^ 32 + v - prev) % 2 ^ 32) ++ deltaBytes v rest

/-- The values section of `build_idx`: the first value verbatim as a
varint, then the wrapping deltas. -/
def valuesSection : List ℕ → List ℕ
  | [] => []
  | v :: rest => encode_varint v ++ deltaBytes v rest

/-- Byte `j` of the presence bitmap: `build_idx` zero-initialises the byte
and then `|=`s `1 << (i % 8)` for every item index `i` with `i / 8 = j`
whose count is exactly 1. -/
def bitmapByte (counts : List ℕ) (j : ℕ) : ℕ :=
  (List.range 8).foldl
    (fun acc i => if counts[8 * j + i]? = some 1 then acc ||| (1 <<< i) else acc) 0

/-- The presence bitmap of `build_idx`: `(num_distinct + 7) / 8` bytes. -/
def bitmapBytes (counts : List ℕ) : List ℕ :=
  (List.range ((counts.length + 7) / 8)).map (bitmapByte counts)

/-- The overflow counts section of `build_idx`: for every item whose count
is not 1 (in ascending item order), the varint of `count - 2` computed in
`uint32_t` (wrapping, modelled as `(c + (2 ^ 32 - 2)) % 2 ^ 32`). -/
def overflowBytes (counts : List ℕ) : List ℕ :=
  counts.flatMap fun c =>
    if c = 1 then [] else encode_varint ((c + (2 ^ 32 - 2)) % 2 ^ 32)

/-- The contents of the `std::unordered_map` frequency table of
`build_idx`, in one canonical order (iteration order of the hash map is
arbitrary; `build_idxOfPairs` is proved independent of it).  The mapped
count is a `uint32_t`, hence the `% 2 ^ 32`. -/
def freqPairs (data : List ℕ) : List (ℕ × ℕ) :=
  data.dedup.map fun v => (v, data.count v % 2 ^ 32)

/-- The sort of `build_idx` (`std::ranges::sort` with comparator
`a.first < b.first`): any sort produces a sequence that is ascending in
the key, and the keys are distinct, so the result is the unique
key-sorted reordering.  `insertionSort` by `≤` on keys realises it. -/
def sortPairs (pairs : List (ℕ × ℕ)) : List (ℕ × ℕ) :=
  List.insertionSort (fun a b => a.1 ≤ b.1) pairs

/-- The encoded index built from the frequency-table contents, before the
cost check: 8-byte header (`num_distinct` and `counts_offset`, each cast
to `uint32_t` and stored little-endian), values section, presence bitmap,
overflow counts. -/
def buildFromPairs (pairs : List (ℕ × ℕ)) : List ℕ :=
  let items := sortPairs pairs
  let values := valuesSection (items.map Prod.fst)
  let counts := items.map Prod.snd
  le4 (items.length % 2 ^ 32) ++ le4 ((8 + values.length) % 2 ^ 32) ++
    values ++ bitmapBytes counts ++ overflowBytes counts

/-- Modelled from the spec: `Parameters.hpp` is not among the sources.
The spec describes the cost parameters as two positive numbers,
`access_cost` (field `f_a`) and `skip_cost` (field `f_s`); they are
modelled as rationals and the `double` arithmetic of the admission check
(`f_a / f_s`, `550.0 * ratio * 1024.0`) is carried out exactly over `ℚ`. -/
structure Parameters where
  f_a : ℚ
  f_s : ℚ

/-- The admission check of `build_idx` applied to the encoded bytes for a
given frequency-table content: return `[]` (no index) when the encoded
size exceeds `550 * (f_a / f_s) * 1024`, else the encoded index. -/
def build_idxOfPairs (pairs : List (ℕ × ℕ)) (config : Parameters) : List ℕ :=
  if ((buildFromPairs pairs).length : ℚ) > 550 * (config.f_a / config.f_s) * 1024
  then [] else buildFromPairs pairs

/-- `build_idx` from `User.hpp` on the canonical frequency-table order. -/
def build_idx (data : List ℕ) (config : Parameters) : List ℕ :=
  build_idxOfPairs (freqPairs data) config

/-- The value-scan loop of `query_idx`: decode `num_indexed` varints,
reconstructing each value (first verbatim, then a running wrapping sum),
and stop on a match (`some i` = `found_idx`), on `current > predicate`
(early exit, count 0, here `none`) or on exhaustion (`none`).  The fuel
is the number of remaining loop iterations. -/
def scanLoop (index : List ℕ) (pred : ℕ) : ℕ → ℕ → ℕ → ℕ → Except Unit (Option ℕ)
  | 0, _, _, _ => Except.ok none
  | fuel + 1, off, current, i =>
    match decode_varint index off with
    | none => Except.error ()
    | some (d, off') =>
      let current' := if i = 0 then d else (current + d) % 2 ^ 32
      if current' = pred then Except.ok (some i)
      else if current' > pred then Except.ok none
      else scanLoop index pred fuel off' current' (i + 1)

/-- The `non_ones_before` loop of `query_idx`: among item indices
`0 ≤ i < p`, count those whose presence-bitmap bit is clear.  Each
iteration reads the bitmap byte at `bo + i / 8`; `none` models an
out-of-bounds read. -/
def nonOnesBefore (index : List ℕ) (bo : ℕ) : ℕ → Option ℕ
  | 0 => some 0
  | p + 1 =>
    match nonOnesBefore index bo p, index[bo + p / 8]? with
    | some k, some b => some (k + if b &&& (1 <<< (p % 8)) = 0 then 1 else 0)
    | _, _ => none

/-- The inner skip of `query_idx`: advance past one varint
(`while (index[off] & 0x80) off++; off++`).  `none` models an
out-of-bounds read; the fuel only bounds the number of reads. -/
def skipOne (index : List ℕ) : ℕ → ℕ → Option ℕ
  | 0, _ => none
  | fuel + 1, off =>
    match index[off]? with
    | none => none
    | some b => if b &&& 128 = 0 then some (off + 1) else skipOne index fuel (off + 1)

/-- The outer skip of `query_idx`: advance past `k` varints. -/
def skipVarints (index : List ℕ) : ℕ → ℕ → Option ℕ
  | 0, off => some off
  | k + 1, off =>
    match skipOne index (index.length + 1) off with
    | none => none
    | some off' => skipVarints index k off'

/-- `query_idx` from `User.hpp`.  `Except.ok none` is `std::nullopt`
(no index supplied), `Except.ok (some c)` is a concrete count, and
`Except.error ()` marks an out-of-bounds buffer access (undefined
behaviour in the C++). -/
def query_idx (pred : ℕ) (index : List ℕ) : Except Unit (Option ℕ) :=
  if index = [] then Except.ok none
  else
    match readLE4 index 0, readLE4 index 4 with
    | some n, some co =>
      match scanLoop index pred n 8 0 0 with
      | Except.error _ => Except.error ()
      | Except.ok none => Except.ok (some 0)
      | Except.ok (some p) =>
        match index[co + p / 8]? with
        | none => Except.error ()
        | some b =>
          if b &&& (1 <<< (p % 8)) ≠ 0 then Except.ok (some 1)
          else
            match nonOnesBefore index co p with
            | none => Except.error ()
            | some k =>
              match skipVarints index k (co + (n + 7) / 8) with
              | none => Except.error ()
              | some voff =>
                match decode_varint index voff with
                | none => Except.error ()
                | some (c2, _) => Except.ok (some (c2 + 2))
    | _, _ => Except.error ()

/-- Reference decoder for the values section (used to state the sorted
invariant): decode `fuel` varints starting at `off`, reconstructing the
value list exactly as the scan of `query_idx` does. -/
def decodeValuesAux (index : List ℕ) : ℕ → ℕ → ℕ → ℕ → Option (List ℕ)
  | 0, _, _, _ => some []
  | fuel + 1, off, current, i =>
    match decode_varint index off with
    | none => none
    | some (d, off') =>
      let current' := if i = 0 then d else (current + d) % 2 ^ 32
      match decodeValuesAux index fuel off' current' (i + 1) with
      | none => none
      | some vs => some (current' :: vs)

/-- Decode all `n` entries of the values section of an index. -/
def decodeValues (index : List ℕ) (n : ℕ) : Option (List ℕ) :=
  decodeValuesAux index n 8 0 0

/-- Number of set bits among the first `n` bits of the presence bitmap
starting at byte offset `bo` of the index. -/
def onesAmong (index : List ℕ) (bo : ℕ) : ℕ → Option ℕ
  | 0 => some 0
  | p + 1 =>
    match onesAmong index bo p, index[bo + p / 8]? with
    | some k, some b => some (k + if b &&& (1 <<< (p % 8)) ≠ 0 then 1 else 0)
    | _, _ => none

/-- Drop the bytes of one varint from the front of a byte list
(continuation bytes have the high bit set); `none` if the bytes end
mid-varint. -/
def dropOneVarint : List ℕ → Option (List ℕ)
  | [] => none
  | b :: rest => if b &&& 128 = 0 then some rest else dropOneVarint rest

/-- Number of varints a byte list parses into, greedily; `none` if the
list ends in the middle of a varint. -/
def countVarintsAux : ℕ → List ℕ → Option ℕ
  | _, [] => some 0
  | 0, _ :: _ => none
  | fuel + 1, b :: rest =>
    match dropOneVarint (b :: rest) with
    | none => none
    | some rest' =>
      match countVarintsAux fuel rest' with
      | none => none
      | some m => some (m + 1)

/-- Number of varints in a byte list (fuel-free wrapper). -/
def countVarints (bytes : List ℕ) : Option ℕ :=
  countVarintsAux (bytes.length + 1) bytes

end FreqIdx

namespace FreqIdx

/-! ### Basic bit-arithmetic helpers -/

theorem and127_eq_mod (x : ℕ) : x &&& 127 = x % 128 := by
  have h := Nat.and_pow_two_sub_one_eq_mod x 7
  norm_num at h
  omega

theorem lor_shiftLeft_eq_add (acc m s : ℕ) (h : acc < 2 ^ s) :
    acc ||| (m <<< s) = m * 2 ^ s + acc := by
  apply Nat.eq_of_testBit_eq
  intro k
  rw [Nat.testBit_lor, Nat.testBit_shiftLeft,
    show m * 2 ^ s + acc = 2 ^ s * m + acc by ring,
    Nat.testBit_mul_pow_two_add m h k]
  rcases lt_or_ge k s with hk | hk
  · simp [hk, Nat.not_le.mpr hk]
  · have : acc.testBit k = false :=
      Nat.testBit_lt_two_pow (lt_of_lt_of_le h (Nat.pow_le_pow_right (by omega) hk))
    simp [this, hk, Nat.not_lt.mpr hk]

theorem lor128_eq_add (x : ℕ) (h : x < 128) : x ||| 128 = x + 128 := by
  have h7 : (128 : ℕ) = 1 <<< 7 := by decide
  rw [h7, lor_shiftLeft_eq_add x 1 7 (by omega)]
  omega

theorem and128_of_lt (x : ℕ) (h : x < 128) : x &&& 128 = 0 := by
  have h7 : (128 : ℕ) = 2 ^ 7 := by norm_num
  rw [h7, Nat.and_two_pow, Nat.testBit_lt_two_pow (by omega)]
  simp

theorem and128_add (x : ℕ) (h : x < 128) : (x + 128) &&& 128 ≠ 0 := by
  have hbit : (x + 128).testBit 7 = true := by
    rw [Nat.testBit_to_div_mod]
    have h128 : (2 : ℕ) ^ 7 = 128 := by norm_num
    rw [h128]
    simp only [decide_eq_true_eq]
    omega
  have hand : (x + 128) &&& 128 = ((x + 128).testBit 7).toNat * 128 := by
    have h := Nat.and_two_pow (x + 128) 7
    norm_num at h
    exact h
  rw [hand, hbit]
  norm_num

/-- The fuel of `encodeVarintAux` is irrelevant as long as it suffices. -/
theorem encodeVarintAux_congr : ∀ (f1 f2 v : ℕ), v < 128 ^ (f1 + 1) →
    v < 128 ^ (f2 + 1) → encodeVarintAux f1 v = encodeVarintAux f2 v := by
  intro f1
  induction f1 with
  | zero =>
    intro f2 v h1 _
    have hv : v < 128 := by simpa using h1
    cases f2 with
    | zero => rfl
    | succ f2 => simp [encodeVarintAux, hv]
  | succ f1 ih =>
    intro f2 v h1 h2
    by_cases hv : v < 128
    · cases f2 with
      | zero => simp [encodeVarintAux, hv]
      | succ f2 => simp [encodeVarintAux, hv]
    · cases f2 with
      | zero =>
        exfalso
        simp at h2
        omega
      | succ f2 =>
        simp only [encodeVarintAux, if_neg hv]
        congr 1
        have hd : v >>> 7 = v / 128 := by
          rw [Nat.shiftRight_eq_div_pow]
        have hstep : ∀ f : ℕ, v < 128 ^ (f + 2) → v >>> 7 < 128 ^ (f + 1) := by
          intro f hf
          rw [hd, Nat.div_lt_iff_lt_mul (by norm_num : (0 : ℕ) < 128)]
          calc v < 128 ^ (f + 2) := hf
          _ = 128 ^ (f + 1) * 128 := by rw [pow_succ]
        exact ih f2 (v >>> 7) (hstep f1 h1) (hstep f2 h2)

/-- Fuel `v` always suffices for `encodeVarintAux`. -/
theorem lt_pow128 (v : ℕ) : v < 128 ^ (v + 1) := by
  have h1 : v < 2 ^ v := Nat.lt_two_pow v
  have h2 : (2 : ℕ) ^ v ≤ 128 ^ v := Nat.pow_le_pow_left (by norm_num) v
  have h3 : (128 : ℕ) ^ v ≤ 128 ^ (v + 1) := Nat.pow_le_pow_right (by norm_num) (by omega)
  omega

/-- The recursion of `encode_varint`, with masks evaluated to `%`/`/`. -/
theorem encode_varint_eq (v : ℕ) :
    encode_varint v =
      if v < 128 then [v] else (v % 128 + 128) :: encode_varint (v >>> 7) := by
  rw [encode_varint]
  by_cases hv : v < 128
  · rw [if_pos hv]
    have hstep : encodeVarintAux v v = [v &&& 127] := by
      cases v with
      | zero => rfl
      | succ n => simp [encodeVarintAux, hv]
    rw [hstep, and127_eq_mod, Nat.mod_eq_of_lt hv]
  · rw [if_neg hv]
    obtain ⟨n, rfl⟩ : ∃ n, v = n + 1 := ⟨v - 1, by omega⟩
    simp only [encodeVarintAux, if_neg hv]
    rw [and127_eq_mod, lor128_eq_add _ (Nat.mod_lt _ (by omega))]
    congr 1
    rw [encode_varint]
    apply encodeVarintAux_congr
    · have hd : (n + 1) >>> 7 = (n + 1) / 128 := by
        rw [Nat.shiftRight_eq_div_pow]
      rw [hd, Nat.div_lt_iff_lt_mul (by norm_num : (0 : ℕ) < 128), ← pow_succ]
      exact lt_pow128 (n + 1)
    · exact lt_pow128 _

theorem encode_varint_ne_nil (v : ℕ) : encode_varint v ≠ [] := by
  rw [encode_varint_eq]
  split <;> simp

theorem length_encode_varint_pos (v : ℕ) : 0 < (encode_varint v).length := by
  cases h : encode_varint v with
  | nil => exact absurd h (encode_varint_ne_nil v)
  | cons a l => simp

theorem length_encode_varint_le (k : ℕ) : ∀ v : ℕ, v < 2 ^ (7 * (k + 1)) →
    (encode_varint v).length ≤ k + 1 := by
  induction k with
  | zero =>
    intro v hv
    norm_num at hv
    rw [encode_varint_eq, if_pos hv]
    simp
  | succ k ih =>
    intro v hv
    rw [encode_varint_eq]
    split
    · simp
    · rename_i h
      have hdiv : v >>> 7 = v / 2 ^ 7 := Nat.shiftRight_eq_div_pow v 7
      have hlt : v >>> 7 < 2 ^ (7 * (k + 1)) := by
        rw [hdiv, Nat.div_lt_iff_lt_mul (by norm_num : 0 < 2 ^ 7), ← pow_add]
        calc v < 2 ^ (7 * (k + 2)) := hv
        _ = 2 ^ (7 * (k + 1) + 7) := by ring_nf
      have := ih (v >>> 7) hlt
      simp only [List.length_cons]
      omega

theorem length_encode_varint_le_five (v : ℕ) (hv : v < 2 ^ 32) :
    (encode_varint v).length ≤ 5 := by
  have : v < 2 ^ (7 * 5) := lt_of_lt_of_le hv (Nat.pow_le_pow_right (by norm_num) (by norm_num))
  exact length_encode_varint_le 4 v this

/-- Reading the head element of a drop-suffix. -/
theorem getElem?_of_drop_cons {input : List ℕ} {off : ℕ} {b : ℕ} {t : List ℕ}
    (h : input.drop off = b :: t) : input[off]? = some b := by
  have h0 := List.getElem?_drop input off 0
  rw [h] at h0
  simpa using h0.symm

/-- Dropping one more element of a drop-suffix. -/
theorem drop_succ_of_drop_cons {input : List ℕ} {off : ℕ} {b : ℕ} {t : List ℕ}
    (h : input.drop off = b :: t) : input.drop (off + 1) = t := by
  have h1 := List.drop_drop 1 off input
  rw [h] at h1
  simpa using h1.symm

/-- Roundtrip of the varint codec, generalised over the decoder state:
decoding at shift `sh` with accumulator `acc` over the encoding of `v`
adds `v * 2 ^ sh` to the accumulator and stops right after the encoding. -/
theorem decodeAux_encode (v : ℕ) : ∀ (input rest : List ℕ) (off sh acc fuel : ℕ),
    input.drop off = encode_varint v ++ rest →
    acc < 2 ^ sh → v < 2 ^ (32 - sh) → sh ≤ 32 →
    (encode_varint v).length ≤ fuel →
    decodeAux input fuel off sh acc =
      some (acc + v * 2 ^ sh, off + (encode_varint v).length) := by
  induction v using Nat.strong_induction_on with
  | _ v ih =>
    intro input rest off sh acc fuel hdrop hacc hv hsh hfuel
    by_cases h128 : v < 128
    · rw [encode_varint_eq, if_pos h128] at hdrop hfuel ⊢
      obtain ⟨f, rfl⟩ : ∃ f, fuel = f + 1 := ⟨fuel - 1, by simp at hfuel; omega⟩
      rw [List.cons_append, List.nil_append] at hdrop
      have hget := getElem?_of_drop_cons hdrop
      have hwrap : v * 2 ^ sh + acc < 2 ^ 32 := by
        have h1 : (v + 1) * 2 ^ sh ≤ 2 ^ (32 - sh) * 2 ^ sh :=
          Nat.mul_le_mul_right _ (by omega)
        rw [← pow_add] at h1
        have h2 : 32 - sh + sh = 32 := by omega
        rw [h2] at h1
        calc v * 2 ^ sh + acc < v * 2 ^ sh + 2 ^ sh := by omega
        _ = (v + 1) * 2 ^ sh := by ring
        _ ≤ 2 ^ 32 := h1
      simp only [decodeAux, hget]
      rw [and127_eq_mod, Nat.mod_eq_of_lt h128,
        lor_shiftLeft_eq_add acc v sh hacc, Nat.mod_eq_of_lt hwrap,
        if_pos (and128_of_lt v h128)]
      simp [Nat.add_comm]
    · rw [encode_varint_eq, if_neg h128] at hdrop hfuel ⊢
      obtain ⟨f, rfl⟩ : ∃ f, fuel = f + 1 := ⟨fuel - 1, by simp at hfuel; omega⟩
      rw [List.cons_append] at hdrop
      have hget := getElem?_of_drop_cons hdrop
      have hdrop' := drop_succ_of_drop_cons hdrop
      have hmod : v % 128 < 128 := Nat.mod_lt _ (by omega)
      have hsh24 : sh ≤ 24 := by
        by_contra hcon
        push_neg at hcon
        have hle : 2 ^ (32 - sh) ≤ 2 ^ 7 := Nat.pow_le_pow_right (by norm_num) (by omega)
        norm_num at hle
        omega
      have hwrap : v % 128 * 2 ^ sh + acc < 2 ^ (sh + 7) := by
        have : v % 128 * 2 ^ sh + acc < 128 * 2 ^ sh := by
          have := Nat.mul_le_mul_right (2 ^ sh) (show v % 128 + 1 ≤ 128 by omega)
          calc v % 128 * 2 ^ sh + acc < v % 128 * 2 ^ sh + 2 ^ sh := by omega
          _ = (v % 128 + 1) * 2 ^ sh := by ring
          _ ≤ 128 * 2 ^ sh := this
        calc v % 128 * 2 ^ sh + acc < 128 * 2 ^ sh := this
        _ = 2 ^ (sh + 7) := by rw [pow_add]; ring
      have hwrap32 : v % 128 * 2 ^ sh + acc < 2 ^ 32 :=
        lt_of_lt_of_le hwrap (Nat.pow_le_pow_right (by norm_num) (by omega))
      have hdivlt : v >>> 7 < 2 ^ (32 - (sh + 7)) := by
        rw [Nat.shiftRight_eq_div_pow]
        rw [Nat.div_lt_iff_lt_mul (by norm_num : 0 < 2 ^ 7), ← pow_add]
        have : 32 - (sh + 7) + 7 = 32 - sh := by omega
        rw [this]
        exact hv
      have hrec := ih (v >>> 7)
        (by
          have : v >>> 7 = v / 2 ^ 7 := Nat.shiftRight_eq_div_pow v 7
          omega)
        input rest (off + 1) (sh + 7) (v % 128 * 2 ^ sh + acc) f
        hdrop' hwrap hdivlt (by omega) (by simp at hfuel; omega)
      simp only [decodeAux, hget]
      have hb127 : (v % 128 + 128) &&& 127 = v % 128 := by
        rw [and127_eq_mod]
        omega
      rw [hb127, lor_shiftLeft_eq_add acc (v % 128) sh hacc, Nat.mod_eq_of_lt hwrap32,
        if_neg (and128_add (v % 128) hmod), hrec]
      have hval : v % 128 * 2 ^ sh + acc + v >>> 7 * 2 ^ (sh + 7) = acc + v * 2 ^ sh := by
        have h1 : v >>> 7 = v / 128 := by
          rw [Nat.shiftRight_eq_div_pow]
        have h3 : 128 * (v / 128) + v % 128 = v := Nat.div_add_mod v 128
        rw [h1]
        calc v % 128 * 2 ^ sh + acc + v / 128 * 2 ^ (sh + 7)
            = acc + (128 * (v / 128) + v % 128) * 2 ^ sh := by rw [pow_add]; ring
        _ = acc + v * 2 ^ sh := by rw [h3]
      rw [hval]
      simp only [List.length_cons]
      congr 2
      omega

/-- Roundtrip of the varint codec: decoding the bytes written by
`encode_varint`, in any context, returns the value and advances the
offset by exactly the number of bytes written. -/
theorem decode_varint_encode (input rest : List ℕ) (off v : ℕ) (hv : v < 2 ^ 32)
    (hdrop : input.drop off = encode_varint v ++ rest) :
    decode_varint input off = some (v, off + (encode_varint v).length) := by
  have hlen : (encode_varint v).length ≤ input.length := by
    have hcong := congrArg List.length hdrop
    simp only [List.length_drop, List.length_append] at hcong
    omega
  have h := decodeAux_encode v input rest off 0 0 (input.length + 1) hdrop
    (by norm_num) (by simpa using hv) (by norm_num) (by omega)
  simpa using h

/-- Dropping past an identified prefix of a drop-suffix. -/
theorem drop_append_of_drop {input X Y : List ℕ} {off : ℕ}
    (h : input.drop off = X ++ Y) : input.drop (off + X.length) = Y := by
  have h1 := List.drop_drop X.length off input
  rw [h, List.drop_left] at h1
  exact h1.symm

/-- `skipOne` (the inner loop of the overflow skip in `query_idx`) stops
exactly after one encoded varint. -/
theorem skipOne_encode (v : ℕ) : ∀ (input rest : List ℕ) (off fuel : ℕ),
    input.drop off = encode_varint v ++ rest →
    (encode_varint v).length ≤ fuel →
    skipOne input fuel off = some (off + (encode_varint v).length) := by
  induction v using Nat.strong_induction_on with
  | _ v ih =>
    intro input rest off fuel hdrop hfuel
    by_cases h128 : v < 128
    · rw [encode_varint_eq, if_pos h128] at hdrop hfuel ⊢
      obtain ⟨f, rfl⟩ : ∃ f, fuel = f + 1 := ⟨fuel - 1, by simp at hfuel; omega⟩
      rw [List.cons_append, List.nil_append] at hdrop
      have hget := getElem?_of_drop_cons hdrop
      simp only [skipOne, hget, if_pos (and128_of_lt v h128)]
      simp
    · rw [encode_varint_eq, if_neg h128] at hdrop hfuel ⊢
      obtain ⟨f, rfl⟩ : ∃ f, fuel = f + 1 := ⟨fuel - 1, by simp at hfuel; omega⟩
      rw [List.cons_append] at hdrop
      have hget := getElem?_of_drop_cons hdrop
      have hdrop' := drop_succ_of_drop_cons hdrop
      have hrec := ih (v >>> 7)
        (by
          have : v >>> 7 = v / 2 ^ 7 := Nat.shiftRight_eq_div_pow v 7
          omega)
        input rest (off + 1) f hdrop' (by simp at hfuel; omega)
      simp only [skipOne, hget, if_neg (and128_add (v % 128) (Nat.mod_lt _ (by omega))), hrec]
      simp only [List.length_cons]
      congr 1
      omega

/-- `skipVarints` over the concatenated encodings of `ms` lands exactly
after them. -/
theorem skipVarints_flat : ∀ (ms : List ℕ) (input tail : List ℕ) (off : ℕ),
    input.drop off = ms.flatMap encode_varint ++ tail →
    skipVarints input ms.length off =
      some (off + (ms.flatMap encode_varint).length) := by
  intro ms
  induction ms with
  | nil =>
    intro input tail off hdrop
    simp [skipVarints]
  | cons m ms ih =>
    intro input tail off hdrop
    rw [List.flatMap_cons, List.append_assoc] at hdrop
    have hlen : (encode_varint m).length ≤ input.length + 1 := by
      have hcong := congrArg List.length hdrop
      simp only [List.length_drop, List.length_append] at hcong
      omega
    have hone := skipOne_encode m input (ms.flatMap encode_varint ++ tail) off
      (input.length + 1) hdrop hlen
    have hdrop' := drop_append_of_drop hdrop
    simp only [List.length_cons, skipVarints, hone, ih input tail _ hdrop']
    rw [List.flatMap_cons]
    simp only [List.length_append]
    congr 1
    omega

/-- `dropOneVarint` removes exactly one encoded varint. -/
theorem dropOneVarint_encode (v : ℕ) : ∀ (rest : List ℕ),
    dropOneVarint (encode_varint v ++ rest) = some rest := by
  induction v using Nat.strong_induction_on with
  | _ v ih =>
    intro rest
    by_cases h128 : v < 128
    · rw [encode_varint_eq, if_pos h128]
      simp [dropOneVarint, and128_of_lt v h128]
    · rw [encode_varint_eq, if_neg h128, List.cons_append]
      simp only [dropOneVarint, if_neg (and128_add (v % 128) (Nat.mod_lt _ (by omega)))]
      exact ih (v >>> 7)
        (by
          have : v >>> 7 = v / 2 ^ 7 := Nat.shiftRight_eq_div_pow v 7
          omega) rest

/-- `countVarintsAux` over the concatenated encodings of `ms` counts
exactly `ms.length` varints. -/
theorem countVarintsAux_flat : ∀ (ms : List ℕ) (fuel : ℕ),
    (ms.flatMap encode_varint).length < fuel →
    countVarintsAux fuel (ms.flatMap encode_varint) = some ms.length := by
  intro ms
  induction ms with
  | nil =>
    intro fuel _
    simp [countVarintsAux]
  | cons m ms ih =>
    intro fuel hfuel
    obtain ⟨f, rfl⟩ : ∃ f, fuel = f + 1 := ⟨fuel - 1, by omega⟩
    rw [List.flatMap_cons] at hfuel ⊢
    obtain ⟨b, t, henc⟩ : ∃ b t, encode_varint m = b :: t := by
      cases h : encode_varint m with
      | nil => exact absurd h (encode_varint_ne_nil m)
      | cons b t => exact ⟨b, t, rfl⟩
    rw [henc, List.cons_append]
    have hdropOne : dropOneVarint (b :: (t ++ ms.flatMap encode_varint)) =
        some (ms.flatMap encode_varint) := by
      rw [← List.cons_append, ← henc]
      exact dropOneVarint_encode m _
    have hrec : countVarintsAux f (ms.flatMap encode_varint) = some ms.length := by
      apply ih
      simp only [List.length_append] at hfuel
      have := length_encode_varint_pos m
      omega
    simp only [countVarintsAux, hdropOne, hrec]
    simp

/-- `countVarints` over the concatenated encodings of `ms`. -/
theorem countVarints_flat (ms : List ℕ) :
    countVarints (ms.flatMap encode_varint) = some ms.length :=
  countVarintsAux_flat ms _ (by omega)

/-- A 4-byte little-endian field is read back exactly. -/
theorem readLE4_le4 {input rest : List ℕ} {pos m : ℕ}
    (h : input.drop pos = le4 m ++ rest) (hm : m < 2 ^ 32) :
    readLE4 input pos = some m := by
  have h0 : input[pos]? = some (m % 256) := by
    have := List.getElem?_drop input pos 0
    rw [h] at this
    simpa [le4] using this.symm
  have h1 : input[pos + 1]? = some (m / 256 % 256) := by
    have := List.getElem?_drop input pos 1
    rw [h] at this
    simpa [le4] using this.symm
  have h2 : input[pos + 2]? = some (m / 65536 % 256) := by
    have := List.getElem?_drop input pos 2
    rw [h] at this
    simpa [le4] using this.symm
  have h3 : input[pos + 3]? = some (m / 16777216 % 256) := by
    have := List.getElem?_drop input pos 3
    rw [h] at this
    simpa [le4] using this.symm
  simp only [readLE4, h0, h1, h2, h3]
  congr 1
  omega

/-! ### Presence bitmap -/

/-- Bits accumulated by an `|=`-fold over `List.range n`, characterised. -/
theorem foldl_setBits_testBit (p : ℕ → Prop) [DecidablePred p] : ∀ (n k : ℕ),
    (((List.range n).foldl
        (fun acc i => if p i then acc ||| (1 <<< i) else acc) 0).testBit k = true)
      ↔ (k < n ∧ p k) := by
  intro n
  induction n with
  | zero => simp
  | succ n ih =>
    intro k
    rw [List.range_succ, List.foldl_append]
    by_cases hp : p n
    · simp only [List.foldl_cons, List.foldl_nil, if_pos hp]
      rw [Nat.testBit_lor, Bool.or_eq_true, ih,
        show (1 : ℕ) <<< n = 2 ^ n by rw [Nat.shiftLeft_eq, one_mul],
        Nat.testBit_two_pow, decide_eq_true_iff]
      constructor
      · rintro (⟨hk, hpk⟩ | rfl)
        · exact ⟨by omega, hpk⟩
        · exact ⟨by omega, hp⟩
      · rintro ⟨hk, hpk⟩
        by_cases hkn : k = n
        · exact Or.inr hkn.symm
        · exact Or.inl ⟨by omega, hpk⟩
    · simp only [List.foldl_cons, List.foldl_nil, if_neg hp]
      rw [ih]
      constructor
      · rintro ⟨hk, hpk⟩
        exact ⟨by omega, hpk⟩
      · rintro ⟨hk, hpk⟩
        refine ⟨?_, hpk⟩
        rcases Nat.lt_succ_iff_lt_or_eq.mp hk with h | rfl
        · exact h
        · exact absurd hpk hp

/-- Bit `i` of bitmap byte `j` is set exactly when item `8 * j + i` has
count 1. -/
theorem bitmapByte_testBit (counts : List ℕ) (j i : ℕ) (hi : i < 8) :
    ((bitmapByte counts j).testBit i = true) ↔ counts[8 * j + i]? = some 1 := by
  rw [bitmapByte, foldl_setBits_testBit (fun i => counts[8 * j + i]? = some 1) 8 i]
  simp [hi]

theorem bitmapBytes_length (counts : List ℕ) :
    (bitmapBytes counts).length = (counts.length + 7) / 8 := by
  simp [bitmapBytes]

theorem bitmapBytes_getElem (counts : List ℕ) (j : ℕ)
    (hj : j < (counts.length + 7) / 8) :
    (bitmapBytes counts)[j]? = some (bitmapByte counts j) := by
  simp [bitmapBytes, List.getElem?_range hj]

/-- The bitmap test of `query_idx` (`b & (1 << i)`) decided via `testBit`. -/
theorem and_shift_eq_zero_iff (b i : ℕ) :
    (b &&& (1 <<< i) = 0) ↔ ¬ (b.testBit i = true) := by
  rw [show (1 : ℕ) <<< i = 2 ^ i by rw [Nat.shiftLeft_eq, one_mul], Nat.and_two_pow]
  cases h : b.testBit i
  · simp
  · simp

/-! ### The sorted item list -/

theorem sortPairs_sorted_le (pairs : List (ℕ × ℕ)) :
    List.Sorted (fun a b : ℕ × ℕ => a.1 ≤ b.1) (sortPairs pairs) := by
  haveI : IsTotal (ℕ × ℕ) (fun a b => a.1 ≤ b.1) := ⟨fun a b => Nat.le_total a.1 b.1⟩
  haveI : IsTrans (ℕ × ℕ) (fun a b => a.1 ≤ b.1) := ⟨fun _ _ _ hab hbc => le_trans hab hbc⟩
  exact List.sorted_insertionSort _ pairs

theorem sortPairs_perm (pairs : List (ℕ × ℕ)) : (sortPairs pairs).Perm pairs :=
  List.perm_insertionSort _ pairs

/-- With distinct keys, the sorted item list is strictly ascending in the
key. -/
theorem sortPairs_sorted_lt (pairs : List (ℕ × ℕ))
    (hnd : (pairs.map Prod.fst).Nodup) :
    List.Pairwise (fun a b : ℕ × ℕ => a.1 < b.1) (sortPairs pairs) := by
  have hle := sortPairs_sorted_le pairs
  have hnd' : ((sortPairs pairs).map Prod.fst).Nodup :=
    (((sortPairs_perm pairs).map Prod.fst).nodup_iff).mpr hnd
  have hne : List.Pairwise (fun a b : ℕ × ℕ => a.1 ≠ b.1) (sortPairs pairs) :=
    List.pairwise_map.mp hnd'
  exact (hle.and hne).imp fun h => lt_of_le_of_ne h.1 h.2

theorem freqPairs_fst (data : List ℕ) :
    (freqPairs data).map Prod.fst = data.dedup := by
  simp only [freqPairs, List.map_map]
  have : (Prod.fst ∘ fun v : ℕ => (v, List.count v data % 2 ^ 32)) = id := rfl
  rw [this, List.map_id]

theorem freqPairs_fst_nodup (data : List ℕ) :
    ((freqPairs data).map Prod.fst).Nodup := by
  rw [freqPairs_fst]
  exact data.nodup_dedup

theorem mem_freqPairs (data : List ℕ) (x : ℕ × ℕ) (hx : x ∈ freqPairs data) :
    x.1 ∈ data ∧ x.2 = data.count x.1 % 2 ^ 32 := by
  rw [freqPairs, List.mem_map] at hx
  obtain ⟨v, hv, rfl⟩ := hx
  exact ⟨List.mem_dedup.mp hv, rfl⟩

/-! ### The values section and the scan loop -/

/-- For ascending values the wrapping delta is the plain difference. -/
theorem wrap_delta_eq (prev v : ℕ) (hpv : prev ≤ v) (hv : v < 2 ^ 32) :
    (2 ^ 32 + v - prev) % 2 ^ 32 = v - prev := by
  have h1 : 2 ^ 32 + v - prev = 2 ^ 32 + (v - prev) := by omega
  rw [h1, Nat.add_mod_left]
  exact Nat.mod_eq_of_lt (by omega)

/-- Behaviour of the scan loop of `query_idx` from the state reached after
scanning a strictly ascending prefix ending at value `prev < q`: it
returns `none` (count 0) when `q` is not among the remaining values, and
the item position of `q` when it is. -/
theorem scanLoop_go (index : List ℕ) (q : ℕ) :
    ∀ (vs : List ℕ) (prev i off : ℕ) (tail : List ℕ),
    index.drop off = deltaBytes prev vs ++ tail →
    List.Chain (· < ·) prev vs →
    (∀ v ∈ vs, v < 2 ^ 32) → prev < 2 ^ 32 → prev < q → i ≠ 0 →
    ((q ∉ vs → scanLoop index q vs.length off prev i = Except.ok none) ∧
     (∀ j, vs[j]? = some q →
        scanLoop index q vs.length off prev i = Except.ok (some (i + j)))) := by
  intro vs
  induction vs with
  | nil =>
    intro prev i off tail _ _ _ _ _ _
    constructor
    · intro _
      rfl
    · intro j hj
      simp at hj
  | cons v rest ih =>
    intro prev i off tail hdrop hchain hbound hprev hq hi
    rw [List.chain_cons] at hchain
    obtain ⟨hpv, hchain'⟩ := hchain
    have hv32 : v < 2 ^ 32 := hbound v (by simp)
    rw [deltaBytes, wrap_delta_eq prev v (le_of_lt hpv) hv32, List.append_assoc] at hdrop
    have hdec := decode_varint_encode index (deltaBytes v rest ++ tail) off (v - prev)
      (by omega) hdrop
    have hdrop' := drop_append_of_drop hdrop
    have hcur : (prev + (v - prev)) % 2 ^ 32 = v := by
      have : prev + (v - prev) = v := by omega
      rw [this]
      exact Nat.mod_eq_of_lt hv32
    simp only [List.length_cons, scanLoop, hdec, if_neg hi, hcur]
    have hrestgt : ∀ x ∈ rest, v < x := by
      intro x hx
      exact List.rel_of_pairwise_cons (List.chain_iff_pairwise.mp hchain') hx
    by_cases hvq : v = q
    · rw [if_pos hvq]
      constructor
      · intro hnot
        exact absurd (by simp [hvq]) hnot
      · intro j hj
        cases j with
        | zero => simp
        | succ j' =>
          exfalso
          simp only [List.getElem?_cons_succ] at hj
          obtain ⟨hlt, hval⟩ := List.getElem?_eq_some.mp hj
          have := hrestgt q (hval ▸ List.getElem_mem hlt)
          omega
    · rw [if_neg hvq]
      by_cases hgt : v > q
      · rw [if_pos hgt]
        constructor
        · intro _
          rfl
        · intro j hj
          exfalso
          cases j with
          | zero =>
            simp at hj
            omega
          | succ j' =>
            simp only [List.getElem?_cons_succ] at hj
            obtain ⟨hlt, hval⟩ := List.getElem?_eq_some.mp hj
            have := hrestgt q (hval ▸ List.getElem_mem hlt)
            omega
      · rw [if_neg hgt]
        have hvltq : v < q := by omega
        have := ih v (i + 1) (off + (encode_varint (v - prev)).length) tail hdrop'
          hchain' (fun x hx => hbound x (by simp [hx])) hv32 hvltq (by omega)
        constructor
        · intro hnot
          exact this.1 (fun hmem => hnot (by simp [hmem]))
        · intro j hj
          cases j with
          | zero =>
            simp at hj
            omega
          | succ j' =>
            simp only [List.getElem?_cons_succ] at hj
            rw [this.2 j' hj]
            congr 2
            omega

/-- Behaviour of the scan loop of `query_idx` over the whole values
section of a strictly ascending value list. -/
theorem scanLoop_top (index : List ℕ) (q : ℕ) (vals : List ℕ) (tail : List ℕ)
    (hdrop : index.drop 8 = valuesSection vals ++ tail)
    (hsorted : List.Pairwise (· < ·) vals)
    (hbound : ∀ v ∈ vals, v < 2 ^ 32) :
    ((q ∉ vals → scanLoop index q vals.length 8 0 0 = Except.ok none) ∧
     (∀ j, vals[j]? = some q →
        scanLoop index q vals.length 8 0 0 = Except.ok (some j))) := by
  cases vals with
  | nil =>
    constructor
    · intro _
      rfl
    · intro j hj
      simp at hj
  | cons v rest =>
    have hv32 : v < 2 ^ 32 := hbound v (by simp)
    rw [valuesSection, List.append_assoc] at hdrop
    have hdec := decode_varint_encode index (deltaBytes v rest ++ tail) 8 v hv32 hdrop
    have hdrop' := drop_append_of_drop hdrop
    simp only [List.length_cons, scanLoop, hdec, reduceIte]
    have hrestgt : ∀ x ∈ rest, v < x := by
      intro x hx
      exact List.rel_of_pairwise_cons hsorted hx
    by_cases hvq : v = q
    · rw [if_pos hvq]
      constructor
      · intro hnot
        exact absurd (by simp [hvq]) hnot
      · intro j hj
        cases j with
        | zero => simp
        | succ j' =>
          exfalso
          simp only [List.getElem?_cons_succ] at hj
          obtain ⟨hlt, hval⟩ := List.getElem?_eq_some.mp hj
          have := hrestgt q (hval ▸ List.getElem_mem hlt)
          omega
    · rw [if_neg hvq]
      by_cases hgt : v > q
      · rw [if_pos hgt]
        constructor
        · intro _
          rfl
        · intro j hj
          exfalso
          cases j with
          | zero =>
            simp at hj
            omega
          | succ j' =>
            simp only [List.getElem?_cons_succ] at hj
            obtain ⟨hlt, hval⟩ := List.getElem?_eq_some.mp hj
            have := hrestgt q (hval ▸ List.getElem_mem hlt)
            omega
      · rw [if_neg hgt]
        have hvltq : v < q := by omega
        have hchain : List.Chain (· < ·) v rest := by
          rw [List.chain_iff_pairwise]
          exact hsorted
        have := scanLoop_go index q rest v 1 (8 + (encode_varint v).length) tail hdrop'
          hchain (fun x hx => hbound x (by simp [hx])) hv32 hvltq (by omega)
        constructor
        · intro hnot
          exact this.1 (fun hmem => hnot (by simp [hmem]))
        · intro j hj
          cases j with
          | zero =>
            simp at hj
            omega
          | succ j' =>
            simp only [List.getElem?_cons_succ] at hj
            rw [this.2 j' hj]
            congr 2
            omega

/-- The reference decoder reconstructs a strictly ascending remaining
value list from the state after one decoded value. -/
theorem decodeValuesAux_go (index : List ℕ) :
    ∀ (vs : List ℕ) (prev i off : ℕ) (tail : List ℕ),
    index.drop off = deltaBytes prev vs ++ tail →
    List.Chain (· < ·) prev vs →
    (∀ v ∈ vs, v < 2 ^ 32) → prev < 2 ^ 32 → i ≠ 0 →
    decodeValuesAux index vs.length off prev i = some vs := by
  intro vs
  induction vs with
  | nil =>
    intro prev i off tail _ _ _ _ _
    rfl
  | cons v rest ih =>
    intro prev i off tail hdrop hchain hbound hprev hi
    rw [List.chain_cons] at hchain
    obtain ⟨hpv, hchain'⟩ := hchain
    have hv32 : v < 2 ^ 32 := hbound v (by simp)
    rw [deltaBytes, wrap_delta_eq prev v (le_of_lt hpv) hv32, List.append_assoc] at hdrop
    have hdec := decode_varint_encode index (deltaBytes v rest ++ tail) off (v - prev)
      (by omega) hdrop
    have hdrop' := drop_append_of_drop hdrop
    have hcur : (prev + (v - prev)) % 2 ^ 32 = v := by
      have h0 : prev + (v - prev) = v := by omega
      rw [h0]
      exact Nat.mod_eq_of_lt hv32
    have hrec := ih v (i + 1) (off + (encode_varint (v - prev)).length) tail hdrop'
      hchain' (fun x hx => hbound x (by simp [hx])) hv32 (by omega)
    simp only [List.length_cons, decodeValuesAux, hdec, if_neg hi, hcur, hrec]

/-- The reference decoder reconstructs the whole values section. -/
theorem decodeValues_section (index : List ℕ) (vals tail : List ℕ)
    (hdrop : index.drop 8 = valuesSection vals ++ tail)
    (hsorted : List.Pairwise (· < ·) vals)
    (hbound : ∀ v ∈ vals, v < 2 ^ 32) :
    decodeValues index vals.length = some vals := by
  cases vals with
  | nil => rfl
  | cons v rest =>
    have hv32 : v < 2 ^ 32 := hbound v (by simp)
    rw [valuesSection, List.append_assoc] at hdrop
    have hdec := decode_varint_encode index (deltaBytes v rest ++ tail) 8 v hv32 hdrop
    have hdrop' := drop_append_of_drop hdrop
    have hchain : List.Chain (· < ·) v rest := List.chain_iff_pairwise.mpr hsorted
    have hrec := decodeValuesAux_go index rest v 1 (8 + (encode_varint v).length) tail
      hdrop' hchain (fun x hx => hbound x (by simp [hx])) hv32 (by omega)
    simp only [decodeValues, List.length_cons, decodeValuesAux, hdec, reduceIte, hrec]

/-! ### Structure of the built index -/

/-- The sorted item list of `build_idx` for input `data`. -/
def itemsOf (data : List ℕ) : List (ℕ × ℕ) :=
  sortPairs (freqPairs data)

/-- The sorted distinct values of `data`. -/
def valsOf (data : List ℕ) : List ℕ :=
  (itemsOf data).map Prod.fst

/-- The per-item counts, in sorted value order. -/
def countsOf (data : List ℕ) : List ℕ :=
  (itemsOf data).map Prod.snd

/-- The encoded values section of the built index. -/
def valuesOf (data : List ℕ) : List ℕ :=
  valuesSection (valsOf data)

/-- The `counts_offset` header field of the built index. -/
def coOf (data : List ℕ) : ℕ :=
  8 + (valuesOf data).length

theorem buildFromPairs_decomp (data : List ℕ) :
    buildFromPairs (freqPairs data) =
      le4 ((itemsOf data).length % 2 ^ 32) ++ le4 (coOf data % 2 ^ 32) ++
        valuesOf data ++ bitmapBytes (countsOf data) ++ overflowBytes (countsOf data) :=
  rfl

theorem le4_length (m : ℕ) : (le4 m).length = 4 := rfl

theorem buildFromPairs_ne_nil (pairs : List (ℕ × ℕ)) : buildFromPairs pairs ≠ [] := by
  simp [buildFromPairs, le4]

theorem itemsOf_sorted_lt (data : List ℕ) :
    List.Pairwise (fun a b : ℕ × ℕ => a.1 < b.1) (itemsOf data) :=
  sortPairs_sorted_lt _ (freqPairs_fst_nodup data)

theorem valsOf_sorted (data : List ℕ) : List.Pairwise (· < ·) (valsOf data) :=
  List.pairwise_map.mpr (itemsOf_sorted_lt data)

theorem mem_itemsOf (data : List ℕ) (x : ℕ × ℕ) (hx : x ∈ itemsOf data) :
    x.1 ∈ data ∧ x.2 = data.count x.1 % 2 ^ 32 :=
  mem_freqPairs data x ((sortPairs_perm (freqPairs data)).subset hx)

theorem valsOf_mem_iff (data : List ℕ) (q : ℕ) : q ∈ valsOf data ↔ q ∈ data := by
  have hperm : (valsOf data).Perm (data.dedup) := by
    have := (sortPairs_perm (freqPairs data)).map Prod.fst
    rwa [freqPairs_fst] at this
  rw [hperm.mem_iff, List.mem_dedup]

theorem valsOf_bound (data : List ℕ) (hv : ∀ v ∈ data, v < 2 ^ 32) :
    ∀ v ∈ valsOf data, v < 2 ^ 32 :=
  fun v hmem => hv v ((valsOf_mem_iff data v).mp hmem)

theorem itemsOf_length_le (data : List ℕ) : (itemsOf data).length ≤ data.length := by
  have h1 : (itemsOf data).length = (freqPairs data).length :=
    (sortPairs_perm (freqPairs data)).length_eq
  have h2 : (freqPairs data).length = data.dedup.length := by
    simp [freqPairs]
  rw [h1, h2]
  exact data.dedup_sublist.length_le

theorem valsOf_length (data : List ℕ) : (valsOf data).length = (itemsOf data).length := by
  simp [valsOf]

theorem countsOf_length (data : List ℕ) :
    (countsOf data).length = (itemsOf data).length := by
  simp [countsOf]

theorem deltaBytes_length_le : ∀ (vs : List ℕ) (prev : ℕ),
    (deltaBytes prev vs).length ≤ 5 * vs.length := by
  intro vs
  induction vs with
  | nil =>
    intro prev
    simp [deltaBytes]
  | cons v rest ih =>
    intro prev
    rw [deltaBytes]
    simp only [List.length_append, List.length_cons]
    have h1 := length_encode_varint_le_five ((2 ^ 32 + v - prev) % 2 ^ 32)
      (Nat.mod_lt _ (by norm_num))
    have h2 := ih v
    omega

theorem valuesSection_length_le (vals : List ℕ) (hbound : ∀ v ∈ vals, v < 2 ^ 32) :
    (valuesSection vals).length ≤ 5 * vals.length := by
  cases vals with
  | nil => simp [valuesSection]
  | cons v rest =>
    rw [valuesSection]
    simp only [List.length_append, List.length_cons]
    have h1 := length_encode_varint_le_five v (hbound v (by simp))
    have h2 := deltaBytes_length_le rest v
    omega

theorem idx_drop0 (data : List ℕ) :
    (buildFromPairs (freqPairs data)).drop 0 =
      le4 ((itemsOf data).length % 2 ^ 32) ++
        (le4 (coOf data % 2 ^ 32) ++ (valuesOf data ++
          (bitmapBytes (countsOf data) ++ overflowBytes (countsOf data)))) := by
  rw [List.drop_zero, buildFromPairs_decomp data]
  simp [List.append_assoc]

theorem idx_drop4 (data : List ℕ) :
    (buildFromPairs (freqPairs data)).drop 4 =
      le4 (coOf data % 2 ^ 32) ++ (valuesOf data ++
        (bitmapBytes (countsOf data) ++ overflowBytes (countsOf data))) := by
  have h := drop_append_of_drop (idx_drop0 data)
  rw [le4_length] at h
  simpa using h

theorem idx_drop8 (data : List ℕ) :
    (buildFromPairs (freqPairs data)).drop 8 =
      valuesOf data ++ (bitmapBytes (countsOf data) ++ overflowBytes (countsOf data)) := by
  have h := drop_append_of_drop (idx_drop4 data)
  rw [le4_length] at h
  simpa using h

theorem idx_dropCo (data : List ℕ) :
    (buildFromPairs (freqPairs data)).drop (coOf data) =
      bitmapBytes (countsOf data) ++ overflowBytes (countsOf data) := by
  have h := drop_append_of_drop (idx_drop8 data)
  rw [show (8 : ℕ) + (valuesOf data).length = coOf data from rfl] at h
  exact h

theorem idx_dropOverflow (data : List ℕ) :
    (buildFromPairs (freqPairs data)).drop
        (coOf data + (bitmapBytes (countsOf data)).length) =
      overflowBytes (countsOf data) :=
  drop_append_of_drop (idx_dropCo data)

theorem readLE4_idx0 (data : List ℕ) (hlen : data.length < 2 ^ 28) :
    readLE4 (buildFromPairs (freqPairs data)) 0 = some (itemsOf data).length := by
  have hn : (itemsOf data).length < 2 ^ 32 := by
    have := itemsOf_length_le data
    have h28 : (2 : ℕ) ^ 28 < 2 ^ 32 := by norm_num
    omega
  have h := readLE4_le4 (idx_drop0 data) (Nat.mod_lt _ (by norm_num))
  rwa [Nat.mod_eq_of_lt hn] at h

theorem coOf_lt (data : List ℕ) (hv : ∀ v ∈ data, v < 2 ^ 32)
    (hlen : data.length < 2 ^ 28) : coOf data < 2 ^ 32 := by
  have h1 : (valuesOf data).length ≤ 5 * (valsOf data).length :=
    valuesSection_length_le (valsOf data) (valsOf_bound data hv)
  have h2 : (valsOf data).length ≤ data.length := by
    rw [valsOf_length]
    exact itemsOf_length_le data
  have h3 : (5 : ℕ) * 2 ^ 28 + 8 < 2 ^ 32 := by norm_num
  rw [coOf]
  omega

theorem readLE4_idx4 (data : List ℕ) (hv : ∀ v ∈ data, v < 2 ^ 32)
    (hlen : data.length < 2 ^ 28) :
    readLE4 (buildFromPairs (freqPairs data)) 4 = some (coOf data) := by
  have h := readLE4_le4 (idx_drop4 data) (Nat.mod_lt _ (by norm_num))
  rwa [Nat.mod_eq_of_lt (coOf_lt data hv hlen)] at h

/-- Reading a bitmap byte of the built index. -/
theorem idx_bitmap_byte (data : List ℕ) (j : ℕ)
    (hj : j < ((countsOf data).length + 7) / 8) :
    (buildFromPairs (freqPairs data))[coOf data + j]? =
      some (bitmapByte (countsOf data) j) := by
  have h0 := List.getElem?_drop (buildFromPairs (freqPairs data)) (coOf data) j
  rw [idx_dropCo data] at h0
  rw [← h0, List.getElem?_append_left (by rw [bitmapBytes_length]; exact hj)]
  exact bitmapBytes_getElem _ j hj

/-- The bitmap bit for item `p`, as tested by `query_idx`. -/
theorem idx_bit_test (data : List ℕ) (p : ℕ) (hp : p < (countsOf data).length) :
    ∃ b, (buildFromPairs (freqPairs data))[coOf data + p / 8]? = some b ∧
      ((b &&& (1 <<< (p % 8)) = 0) ↔ ¬ (countsOf data)[p]? = some 1) := by
  have hj : p / 8 < ((countsOf data).length + 7) / 8 := by omega
  refine ⟨bitmapByte (countsOf data) (p / 8), idx_bitmap_byte data (p / 8) hj, ?_⟩
  rw [and_shift_eq_zero_iff, bitmapByte_testBit (countsOf data) (p / 8) (p % 8) (by omega)]
  rw [show 8 * (p / 8) + p % 8 = p from by omega]

/-- The `non_ones_before` loop of `query_idx` on the built index counts
exactly the non-1 counts among the first `p` items. -/
theorem nonOnesBefore_spec (data : List ℕ) : ∀ (p : ℕ),
    p ≤ (countsOf data).length →
    nonOnesBefore (buildFromPairs (freqPairs data)) (coOf data) p =
      some (((countsOf data).take p).filter (fun c => c != 1)).length := by
  intro p
  induction p with
  | zero =>
    intro _
    simp [nonOnesBefore]
  | succ p ih =>
    intro hp
    have hplt : p < (countsOf data).length := by omega
    obtain ⟨b, hb, hbit⟩ := idx_bit_test data p hplt
    obtain ⟨cp, hcp⟩ : ∃ cp, (countsOf data)[p]? = some cp := by
      have : p < (countsOf data).length := hplt
      exact ⟨(countsOf data)[p], by simp [List.getElem?_eq_some, this]⟩
    rw [nonOnesBefore, ih (by omega), hb]
    rw [List.take_succ, hcp]
    simp only [Option.toList_some, List.filter_append, List.length_append]
    by_cases hc1 : cp = 1
    · have hbit0 : ¬ (b &&& (1 <<< (p % 8)) = 0) := by
        rw [hbit]
        simp [hcp, hc1]
      rw [if_neg hbit0]
      simp [hc1]
    · have hbit0 : b &&& (1 <<< (p % 8)) = 0 := by
        rw [hbit, hcp]
        simp [hc1]
      rw [if_pos hbit0]
      simp [hc1, List.filter_cons]

/-- `onesAmong` on the built index counts exactly the count-1 items among
the first `p` items. -/
theorem onesAmong_spec (data : List ℕ) : ∀ (p : ℕ),
    p ≤ (countsOf data).length →
    onesAmong (buildFromPairs (freqPairs data)) (coOf data) p =
      some (((countsOf data).take p).filter (fun c => c == 1)).length := by
  intro p
  induction p with
  | zero =>
    intro _
    simp [onesAmong]
  | succ p ih =>
    intro hp
    have hplt : p < (countsOf data).length := by omega
    obtain ⟨b, hb, hbit⟩ := idx_bit_test data p hplt
    obtain ⟨cp, hcp⟩ : ∃ cp, (countsOf data)[p]? = some cp :=
      ⟨(countsOf data)[p], by simp [List.getElem?_eq_some, hplt]⟩
    rw [onesAmong, ih (by omega), hb]
    rw [List.take_succ, hcp]
    simp only [Option.toList_some, List.filter_append, List.length_append]
    by_cases hc1 : cp = 1
    · have hbit1 : b &&& (1 <<< (p % 8)) ≠ 0 → True := fun _ => trivial
      have hbit0 : ¬ (b &&& (1 <<< (p % 8)) = 0) := by
        rw [hbit]
        simp [hcp, hc1]
      rw [if_pos hbit0]
      simp [hc1]
    · have hbit0 : b &&& (1 <<< (p % 8)) = 0 := by
        rw [hbit, hcp]
        simp [hc1]
      rw [if_neg (by simp [hbit0])]
      simp [hc1, List.filter_cons]

/-- For a count of at least 2, the wrapping `count - 2` of the builder is
the plain difference. -/
theorem wrap_sub2_eq (c : ℕ) (h2 : 2 ≤ c) (hc : c < 2 ^ 32) :
    (c + (2 ^ 32 - 2)) % 2 ^ 32 = c - 2 := by
  have h1 : c + (2 ^ 32 - 2) = 2 ^ 32 + (c - 2) := by omega
  rw [h1, Nat.add_mod_left]
  exact Nat.mod_eq_of_lt (by omega)

/-- The overflow section is the concatenated varints of the adjusted
non-1 counts, in order. -/
theorem overflowBytes_flat (counts : List ℕ) :
    overflowBytes counts =
      ((counts.filter (fun c => c != 1)).map
        (fun c => (c + (2 ^ 32 - 2)) % 2 ^ 32)).flatMap encode_varint := by
  induction counts with
  | nil => rfl
  | cons c rest ih =>
    rw [overflowBytes, List.flatMap_cons, List.filter_cons]
    by_cases hc : c = 1
    · simp only [hc, reduceIte, bne_self_eq_false]
      rw [← overflowBytes]
      simpa using ih
    · have hbne : (c != 1) = true := by simp [hc]
      simp only [if_neg hc, hbne, if_true, cond_true, List.map_cons, List.flatMap_cons,
        reduceIte]
      rw [← overflowBytes, ih]

/-- Central correctness lemma: querying any predicate against the encoded
index (before the admission check) returns exactly the occurrence count
of the predicate in the input data. -/
theorem query_buildFromPairs (data : List ℕ) (q : ℕ)
    (hv : ∀ v ∈ data, v < 2 ^ 32) (hlen : data.length < 2 ^ 28) :
    query_idx q (buildFromPairs (freqPairs data)) =
      Except.ok (some (data.count q)) := by
  have hne : buildFromPairs (freqPairs data) ≠ [] := buildFromPairs_ne_nil _
  have hr0 := readLE4_idx0 data hlen
  have hr4 := readLE4_idx4 data hv hlen
  have hvallen : (valsOf data).length = (itemsOf data).length := valsOf_length data
  have hscan := scanLoop_top (buildFromPairs (freqPairs data)) q (valsOf data)
    (bitmapBytes (countsOf data) ++ overflowBytes (countsOf data))
    (idx_drop8 data) (valsOf_sorted data) (valsOf_bound data hv)
  by_cases hqmem : q ∈ data
  · have hqvals : q ∈ valsOf data := (valsOf_mem_iff data q).mpr hqmem
    obtain ⟨j, hj⟩ := List.getElem?_of_mem hqvals
    have hscanj := hscan.2 j hj
    rw [hvallen] at hscanj
    obtain ⟨hjlt, hjval⟩ := List.getElem?_eq_some.mp hj
    have hjlt' : j < (itemsOf data).length := by rwa [hvallen] at hjlt
    obtain ⟨x, hx, hxq⟩ : ∃ x : ℕ × ℕ, (itemsOf data)[j]? = some x ∧ x.1 = q := by
      have hmap : (valsOf data)[j]? = ((itemsOf data)[j]?).map Prod.fst := by
        rw [valsOf, List.getElem?_map]
      rw [hj] at hmap
      cases hx : (itemsOf data)[j]? with
      | none => rw [hx] at hmap; simp at hmap
      | some x =>
        rw [hx] at hmap
        simp at hmap
        exact ⟨x, rfl, hmap.symm⟩
    have hxmem : x ∈ itemsOf data := by
      obtain ⟨h, heq⟩ := List.getElem?_eq_some.mp hx
      exact heq ▸ List.getElem_mem h
    have hcount_le : data.count q ≤ data.length := List.count_le_length _ _
    have hxsnd : x.2 = data.count q := by
      have h := (mem_itemsOf data x hxmem).2
      rw [hxq] at h
      rw [h, Nat.mod_eq_of_lt (by norm_num at hcount_le ⊢; omega)]
    have hcnt : (countsOf data)[j]? = some (data.count q) := by
      rw [countsOf, List.getElem?_map, hx]
      simp [hxsnd]
    have hjc : j < (countsOf data).length := by
      rw [countsOf_length]
      exact hjlt'
    have hc1 : 1 ≤ data.count q := List.count_pos_iff.mpr hqmem
    have hclt : data.count q < 2 ^ 32 := by norm_num at hcount_le ⊢; omega
    obtain ⟨b, hb, hbit⟩ := idx_bit_test data j hjc
    simp only [query_idx, if_neg hne, hr0, hr4, hscanj, hb]
    by_cases hcq1 : data.count q = 1
    · have hbne : ¬ (b &&& (1 <<< (j % 8)) = 0) := by
        rw [hbit]
        simp [hcnt, hcq1]
      rw [if_pos hbne, hcq1]
    · have hbz : b &&& (1 <<< (j % 8)) = 0 := by
        rw [hbit, hcnt]
        simp
        omega
      rw [if_neg (by simp [hbz])]
      have hnon := nonOnesBefore_spec data j (le_of_lt hjc)
      simp only [hnon]
      have hdropj : (countsOf data).drop j =
          data.count q :: (countsOf data).drop (j + 1) := by
        rw [List.drop_eq_getElem_cons hjc]
        obtain ⟨h, heq⟩ := List.getElem?_eq_some.mp hcnt
        rw [heq]
      have hsplit : countsOf data =
          (countsOf data).take j ++ (data.count q :: (countsOf data).drop (j + 1)) := by
        rw [← hdropj, List.take_append_drop]
      have hqbne : ((data.count q) != 1) = true := by simp [hcq1]
      have hover : (buildFromPairs (freqPairs data)).drop
          (coOf data + (bitmapBytes (countsOf data)).length) =
          ((((countsOf data).take j).filter (fun c => c != 1)).map
              (fun c => (c + (2 ^ 32 - 2)) % 2 ^ 32)).flatMap encode_varint ++
            (encode_varint ((data.count q + (2 ^ 32 - 2)) % 2 ^ 32) ++
              ((((countsOf data).drop (j + 1)).filter (fun c => c != 1)).map
                (fun c => (c + (2 ^ 32 - 2)) % 2 ^ 32)).flatMap encode_varint) := by
        rw [idx_dropOverflow data, overflowBytes_flat]
        conv_lhs => rw [hsplit]
        rw [List.filter_append, List.filter_cons, hqbne]
        simp only [cond_true, if_true, reduceIte, List.map_append, List.map_cons,
          List.flatMap_append, List.flatMap_cons, List.append_assoc]
      have hbmlen : (bitmapBytes (countsOf data)).length =
          ((itemsOf data).length + 7) / 8 := by
        rw [bitmapBytes_length, countsOf_length]
      rw [hbmlen] at hover
      have hskip := skipVarints_flat
        ((((countsOf data).take j).filter (fun c => c != 1)).map
          (fun c => (c + (2 ^ 32 - 2)) % 2 ^ 32))
        (buildFromPairs (freqPairs data))
        (encode_varint ((data.count q + (2 ^ 32 - 2)) % 2 ^ 32) ++
          ((((countsOf data).drop (j + 1)).filter (fun c => c != 1)).map
            (fun c => (c + (2 ^ 32 - 2)) % 2 ^ 32)).flatMap encode_varint)
        (coOf data + ((itemsOf data).length + 7) / 8) hover
      rw [List.length_map] at hskip
      simp only [hskip]
      have hdec := decode_varint_encode (buildFromPairs (freqPairs data))
        (((((countsOf data).drop (j + 1)).filter (fun c => c != 1)).map
          (fun c => (c + (2 ^ 32 - 2)) % 2 ^ 32)).flatMap encode_varint)
        (coOf data + ((itemsOf data).length + 7) / 8 +
          (((((countsOf data).take j).filter (fun c => c != 1)).map
            (fun c => (c + (2 ^ 32 - 2)) % 2 ^ 32)).flatMap encode_varint).length)
        ((data.count q + (2 ^ 32 - 2)) % 2 ^ 32)
        (Nat.mod_lt _ (by norm_num))
        (drop_append_of_drop hover)
      rw [wrap_sub2_eq (data.count q) (by omega) hclt] at hdec
      simp only [hdec]
      congr 2
      omega
  · have hqvals : q ∉ valsOf data := fun h => hqmem ((valsOf_mem_iff data q).mp h)
    have hscan0 := hscan.1 hqvals
    rw [hvallen] at hscan0
    simp only [query_idx, if_neg hne, hr0, hr4, hscan0]
    rw [List.count_eq_zero.mpr hqmem]

/-- A non-empty `build_idx` result is exactly the encoded index. -/
theorem build_idx_eq_of_ne_nil (data : List ℕ) (config : Parameters)
    (hne : build_idx data config ≠ []) :
    build_idx data config = buildFromPairs (freqPairs data) := by
  by_cases h : ((buildFromPairs (freqPairs data)).length : ℚ) >
      550 * (config.f_a / config.f_s) * 1024
  · rw [build_idx, build_idxOfPairs, if_pos h] at hne
    exact absurd rfl hne
  · rw [build_idx, build_idxOfPairs, if_neg h]

/-- Central correctness lemma at the `build_idx` level. -/
theorem query_build (data : List ℕ) (config : Parameters) (q : ℕ)
    (hv : ∀ v ∈ data, v < 2 ^ 32) (hlen : data.length < 2 ^ 28)
    (hne : build_idx data config ≠ []) :
    query_idx q (build_idx data config) = Except.ok (some (data.count q)) := by
  rw [build_idx_eq_of_ne_nil data config hne]
  exact query_buildFromPairs data q hv hlen

/-- Count-1 and non-1 entries partition any count list. -/
theorem filter_one_partition : ∀ (l : List ℕ),
    (l.filter (fun c => c == 1)).length + (l.filter (fun c => c != 1)).length
      = l.length := by
  intro l
  induction l with
  | nil => rfl
  | cons c rest ih =>
    by_cases hc : c = 1
    · subst hc
      simp [List.filter_cons]
      omega
    · simp [List.filter_cons, hc]
      omega

/-- Admission helper: an encoded size within the threshold is kept. -/
theorem build_idx_ne_nil_of_le (data : List ℕ) (config : Parameters)
    (h : ((buildFromPairs (freqPairs data)).length : ℚ) ≤
      550 * (config.f_a / config.f_s) * 1024) :
    build_idx data config ≠ [] := by
  rw [build_idx, build_idxOfPairs, if_neg (not_lt.mpr h)]
  exact buildFromPairs_ne_nil _

/-- Admission helper: an encoded size beyond the threshold is dropped. -/
theorem build_idx_eq_nil_of_gt (data : List ℕ) (config : Parameters)
    (h : ((buildFromPairs (freqPairs data)).length : ℚ) >
      550 * (config.f_a / config.f_s) * 1024) :
    build_idx data config = [] := by
  rw [build_idx, build_idxOfPairs, if_pos h]

/-! ### Claims -/

/-- C1: for every input sequence of `uint32` values (of machine-realistic
length) and cost parameters, if `build_idx` returns a non-empty index,
then for every value `v` appearing in the input, `query_idx v index`
returns `some c` where `c` is the exact number of occurrences of `v`. -/
theorem roundtrip_query_count (data : List ℕ) (config : Parameters) (v : ℕ)
    (hv : ∀ x ∈ data, x < 2 ^ 32) (hlen : data.length < 2 ^ 28)
    (hne : build_idx data config ≠ []) (hmem : v ∈ data) :
    query_idx v (build_idx data config) = Except.ok (some (data.count v)) :=
  query_build data config v hv hlen hne

theorem roundtrip_query_count_witness :
    query_idx 5 (build_idx [5, 5, 5] ⟨1, 1⟩) = Except.ok (some 3) := by
  have hne : build_idx [5, 5, 5] ⟨1, 1⟩ ≠ [] := by
    apply build_idx_ne_nil_of_le
    have h11 : (buildFromPairs (freqPairs [5, 5, 5])).length = 11 := by decide
    rw [h11]
    norm_num
  have h := roundtrip_query_count [5, 5, 5] ⟨1, 1⟩ 5 (by decide) (by decide)
    hne (by decide)
  simpa using h

/-- C2: for every `uint32` value `v` not appearing in the input, a
non-empty index answers `some 0` (present, count zero), never absent. -/
theorem absent_value_zero (data : List ℕ) (config : Parameters) (v : ℕ)
    (hv : ∀ x ∈ data, x < 2 ^ 32) (hlen : data.length < 2 ^ 28)
    (hne : build_idx data config ≠ []) (hv32 : v < 2 ^ 32) (hnot : v ∉ data) :
    query_idx v (build_idx data config) = Except.ok (some 0) := by
  have h := query_build data config v hv hlen hne
  rwa [List.count_eq_zero.mpr hnot] at h

theorem absent_value_zero_witness :
    query_idx 6 (build_idx [5, 5, 5] ⟨1, 1⟩) = Except.ok (some 0) := by
  have hne : build_idx [5, 5, 5] ⟨1, 1⟩ ≠ [] := by
    apply build_idx_ne_nil_of_le
    have h11 : (buildFromPairs (freqPairs [5, 5, 5])).length = 11 := by decide
    rw [h11]
    norm_num
  exact absent_value_zero [5, 5, 5] ⟨1, 1⟩ 6 (by decide) (by decide) hne
    (by decide) (by decide)

/-- C3: `query_idx` answers the absent result (`nullopt`, here
`Except.ok none`) exactly for the empty index; on a non-empty index it
never answers absent (on a well-formed one it answers a concrete count,
and on a malformed one the C++ has undefined behaviour, modelled as
`Except.error`). -/
theorem query_absent_iff (q : ℕ) (index : List ℕ) :
    query_idx q index = Except.ok none ↔ index = [] := by
  constructor
  · intro h
    by_contra hne
    rw [query_idx, if_neg hne] at h
    repeat' split at h
    all_goals simp at h
  · intro h
    rw [h]
    rfl

/-- C4: for every unsigned 32-bit value, `encode_varint` writes between 1
and 5 bytes, and `decode_varint` on those bytes at the same cursor
returns the value and advances the cursor by exactly the bytes written. -/
theorem varint_roundtrip (v : ℕ) (hv : v < 2 ^ 32) (pre post : List ℕ) :
    1 ≤ (encode_varint v).length ∧ (encode_varint v).length ≤ 5 ∧
    decode_varint (pre ++ encode_varint v ++ post) pre.length =
      some (v, pre.length + (encode_varint v).length) := by
  refine ⟨length_encode_varint_pos v, length_encode_varint_le_five v hv, ?_⟩
  apply decode_varint_encode _ post _ v hv
  rw [List.append_assoc, List.drop_left]

theorem varint_roundtrip_witness :
    1 ≤ (encode_varint 300).length ∧ (encode_varint 300).length ≤ 5 ∧
    decode_varint ([0] ++ encode_varint 300 ++ [7]) [0].length =
      some (300, [0].length + (encode_varint 300).length) :=
  varint_roundtrip 300 (by norm_num) [0] [7]

/-- C5: `build_idx` returns the encoded index exactly when its total
encoded size is at most `550 * (access_cost / skip_cost) * 1024` bytes;
beyond that threshold it returns the empty result. -/
theorem admission_threshold (data : List ℕ) (config : Parameters)
    (hfa : 0 < config.f_a) (hfs : 0 < config.f_s) :
    (build_idx data config = buildFromPairs (freqPairs data) ↔
      ((buildFromPairs (freqPairs data)).length : ℚ) ≤
        550 * (config.f_a / config.f_s) * 1024) ∧
    (((buildFromPairs (freqPairs data)).length : ℚ) >
        550 * (config.f_a / config.f_s) * 1024 → build_idx data config = []) := by
  refine ⟨⟨?_, ?_⟩, build_idx_eq_nil_of_gt data config⟩
  · intro h
    by_contra hgt
    push_neg at hgt
    have h0 := build_idx_eq_nil_of_gt data config hgt
    rw [h0] at h
    exact buildFromPairs_ne_nil _ h.symm
  · intro hle
    rw [build_idx, build_idxOfPairs, if_neg (not_lt.mpr hle)]

theorem admission_threshold_witness :
    build_idx [5, 5, 5] ⟨1, 1⟩ = buildFromPairs (freqPairs [5, 5, 5]) := by
  apply (admission_threshold [5, 5, 5] ⟨1, 1⟩ (by norm_num) (by norm_num)).1.mpr
  have h11 : (buildFromPairs (freqPairs [5, 5, 5])).length = 11 := by decide
  rw [h11]
  norm_num

/-- C6: admission is monotone in the cost parameters: raising the access
cost (same skip cost) preserves acceptance, and raising the skip cost
(same access cost) preserves rejection. -/
theorem admission_monotone :
    (∀ (data : List ℕ) (a a' s : ℚ), 0 < a → 0 < s → a ≤ a' →
      build_idx data ⟨a, s⟩ ≠ [] → build_idx data ⟨a', s⟩ ≠ []) ∧
    (∀ (data : List ℕ) (a s s' : ℚ), 0 < a → 0 < s → s ≤ s' →
      build_idx data ⟨a, s⟩ = [] → build_idx data ⟨a, s'⟩ = []) := by
  constructor
  · intro data a a' s ha hs haa hne
    have hle : ((buildFromPairs (freqPairs data)).length : ℚ) ≤ 550 * (a / s) * 1024 := by
      by_contra hgt
      push_neg at hgt
      exact hne (build_idx_eq_nil_of_gt data ⟨a, s⟩ hgt)
    apply build_idx_ne_nil_of_le
    have hdiv : a / s ≤ a' / s := (div_le_div_iff_of_pos_right hs).mpr haa
    have hmul : 550 * (a / s) * 1024 ≤ 550 * (a' / s) * 1024 :=
      mul_le_mul_of_nonneg_right
        (mul_le_mul_of_nonneg_left hdiv (by norm_num : (0 : ℚ) ≤ 550))
        (by norm_num : (0 : ℚ) ≤ 1024)
    exact le_trans hle hmul
  · intro data a s s' ha hs hss hnil
    have hs' : (0 : ℚ) < s' := lt_of_lt_of_le hs hss
    have hgt : ((buildFromPairs (freqPairs data)).length : ℚ) > 550 * (a / s) * 1024 := by
      by_contra hle
      push_neg at hle
      exact build_idx_ne_nil_of_le data ⟨a, s⟩ hle hnil
    apply build_idx_eq_nil_of_gt
    have hdiv : a / s' ≤ a / s := by
      gcongr
    have hmul : 550 * (a / s') * 1024 ≤ 550 * (a / s) * 1024 :=
      mul_le_mul_of_nonneg_right
        (mul_le_mul_of_nonneg_left hdiv (by norm_num : (0 : ℚ) ≤ 550))
        (by norm_num : (0 : ℚ) ≤ 1024)
    exact lt_of_le_of_lt hmul hgt

theorem admission_monotone_witness :
    build_idx [5, 5, 5] ⟨2, 1⟩ ≠ [] ∧
    build_idx [5, 5, 5] ⟨1, 2000000000⟩ = [] := by
  constructor
  · apply admission_monotone.1 [5, 5, 5] 1 2 1 (by norm_num) (by norm_num) (by norm_num)
    apply build_idx_ne_nil_of_le
    have h11 : (buildFromPairs (freqPairs [5, 5, 5])).length = 11 := by decide
    rw [h11]
    norm_num
  · apply admission_monotone.2 [5, 5, 5] 1 1000000000 2000000000 (by norm_num)
      (by norm_num) (by norm_num)
    apply build_idx_eq_nil_of_gt
    have h11 : (buildFromPairs (freqPairs [5, 5, 5])).length = 11 := by decide
    rw [h11]
    norm_num

/-- C7: decoding all `num_distinct` entries of the values section of a
non-empty built index (first verbatim, the rest as running deltas)
reconstructs a strictly increasing value sequence. -/
theorem values_strictly_increasing (data : List ℕ) (config : Parameters)
    (hv : ∀ x ∈ data, x < 2 ^ 32) (hlen : data.length < 2 ^ 28)
    (hne : build_idx data config ≠ []) :
    ∃ n vs, readLE4 (build_idx data config) 0 = some n ∧
      decodeValues (build_idx data config) n = some vs ∧
      List.Pairwise (· < ·) vs := by
  rw [build_idx_eq_of_ne_nil data config hne]
  refine ⟨(itemsOf data).length, valsOf data, readLE4_idx0 data hlen, ?_,
    valsOf_sorted data⟩
  rw [← valsOf_length data]
  exact decodeValues_section _ (valsOf data) _ (idx_drop8 data) (valsOf_sorted data)
    (valsOf_bound data hv)

theorem values_strictly_increasing_witness :
    ∃ n vs, readLE4 (build_idx [3, 1, 2, 2] ⟨1, 1⟩) 0 = some n ∧
      decodeValues (build_idx [3, 1, 2, 2] ⟨1, 1⟩) n = some vs ∧
      List.Pairwise (· < ·) vs := by
  apply values_strictly_increasing [3, 1, 2, 2] ⟨1, 1⟩ (by decide) (by decide)
  apply build_idx_ne_nil_of_le
  have h13 : (buildFromPairs (freqPairs [3, 1, 2, 2])).length = 13 := by decide
  rw [h13]
  norm_num

/-- C8: in a built index the set bits among the first `num_distinct`
presence-bitmap bits plus the varints in the overflow section add up to
`num_distinct` exactly. -/
theorem bitmap_overflow_partition (data : List ℕ) (config : Parameters)
    (hv : ∀ x ∈ data, x < 2 ^ 32) (hlen : data.length < 2 ^ 28)
    (hne : build_idx data config ≠ []) :
    ∃ n co ones m,
      readLE4 (build_idx data config) 0 = some n ∧
      readLE4 (build_idx data config) 4 = some co ∧
      onesAmong (build_idx data config) co n = some ones ∧
      countVarints ((build_idx data config).drop (co + (n + 7) / 8)) = some m ∧
      ones + m = n := by
  rw [build_idx_eq_of_ne_nil data config hne]
  have hnc : (countsOf data).length = (itemsOf data).length := countsOf_length data
  refine ⟨(itemsOf data).length, coOf data,
    ((countsOf data).filter (fun c => c == 1)).length,
    ((countsOf data).filter (fun c => c != 1)).length,
    readLE4_idx0 data hlen, readLE4_idx4 data hv hlen, ?_, ?_, ?_⟩
  · have h := onesAmong_spec data (countsOf data).length (le_refl _)
    rw [List.take_length, hnc] at h
    exact h
  · have hbm : (bitmapBytes (countsOf data)).length =
        ((itemsOf data).length + 7) / 8 := by
      rw [bitmapBytes_length, hnc]
    rw [← hbm, idx_dropOverflow data, overflowBytes_flat, countVarints_flat,
      List.length_map]
  · rw [← hnc]
    exact filter_one_partition (countsOf data)

theorem bitmap_overflow_partition_witness :
    ∃ n co ones m,
      readLE4 (build_idx [1, 2, 3, 7, 7, 7] ⟨1, 1⟩) 0 = some n ∧
      readLE4 (build_idx [1, 2, 3, 7, 7, 7] ⟨1, 1⟩) 4 = some co ∧
      onesAmong (build_idx [1, 2, 3, 7, 7, 7] ⟨1, 1⟩) co n = some ones ∧
      countVarints ((build_idx [1, 2, 3, 7, 7, 7] ⟨1, 1⟩).drop (co + (n + 7) / 8)) =
        some m ∧
      ones + m = n := by
  apply bitmap_overflow_partition [1, 2, 3, 7, 7, 7] ⟨1, 1⟩ (by decide) (by decide)
  apply build_idx_ne_nil_of_le
  have h14 : (buildFromPairs (freqPairs [1, 2, 3, 7, 7, 7])).length = 14 := by decide
  rw [h14]
  norm_num

/-- C9: `build_idx` is a deterministic pure function of its input: the
byte result does not depend on the iteration order of the intermediate
unordered frequency map (that order is erased by the key sort), and
`query_idx` is likewise a plain function of its arguments. -/
theorem build_deterministic (data : List ℕ) (config : Parameters)
    (pairs : List (ℕ × ℕ)) (hperm : pairs.Perm (freqPairs data)) :
    build_idxOfPairs pairs config = build_idx data config := by
  have hnd : (pairs.map Prod.fst).Nodup :=
    ((hperm.map Prod.fst).nodup_iff).mpr (freqPairs_fst_nodup data)
  have h1 := sortPairs_sorted_lt pairs hnd
  have h2 := sortPairs_sorted_lt (freqPairs data) (freqPairs_fst_nodup data)
  have hp : (sortPairs pairs).Perm (sortPairs (freqPairs data)) :=
    (sortPairs_perm pairs).trans (hperm.trans (sortPairs_perm (freqPairs data)).symm)
  haveI : IsAntisymm (ℕ × ℕ) (fun a b => a.1 < b.1) :=
    ⟨fun a b hab hba => absurd (lt_trans hab hba) (lt_irrefl _)⟩
  have hsort : sortPairs pairs = sortPairs (freqPairs data) :=
    List.eq_of_perm_of_sorted hp h1 h2
  have hbuild : buildFromPairs pairs = buildFromPairs (freqPairs data) := by
    rw [buildFromPairs, buildFromPairs, hsort]
  rw [build_idx, build_idxOfPairs, build_idxOfPairs, hbuild]

theorem build_deterministic_witness :
    build_idxOfPairs [(2, 1), (1, 1)] ⟨1, 1⟩ = build_idx [1, 2] ⟨1, 1⟩ :=
  build_deterministic [1, 2] ⟨1, 1⟩ [(2, 1), (1, 1)] (by decide)

/-- C10: on a non-empty built index, every byte access of `query_idx`
stays within the bounds of the index (the out-of-bounds outcome
`Except.error`, which models a read at or past `index.size()`, is never
reached, for any `uint32` predicate). -/
theorem query_in_bounds (data : List ℕ) (config : Parameters) (q : ℕ)
    (hv : ∀ x ∈ data, x < 2 ^ 32) (hlen : data.length < 2 ^ 28)
    (hq : q < 2 ^ 32) (hne : build_idx data config ≠ []) :
    query_idx q (build_idx data config) ≠ Except.error () := by
  rw [query_build data config q hv hlen hne]
  simp

theorem query_in_bounds_witness :
    query_idx 4 (build_idx [9, 300, 300, 2] ⟨1, 1⟩) ≠ Except.error () := by
  apply query_in_bounds [9, 300, 300, 2] ⟨1, 1⟩ 4 (by decide) (by decide) (by decide)
  apply build_idx_ne_nil_of_le
  have h : (buildFromPairs (freqPairs [9, 300, 300, 2])).length = 14 := by decide
  rw [h]
  norm_num
